import Mathlib

/-!
Verification of the `dictionary::Dictionary<Key, Value>` container from
`include/dictionary/dictionary.h`.

The class wraps a `std::unordered_map<Key, Value> data`. We embed the
underlying map as a `List (Key × Value)` holding the container's entries
(iteration order of the hash table is unspecified, so the list order is a
modelling artifact; every reachable container has pairwise-distinct keys,
captured by the predicate `Dictionary.WF`). Each member function of the
class is translated below, following the member-wise semantics of
`std::unordered_map` for the calls the source makes (`data[key] = value`,
`data.find`, `data.erase`, `data.clear`, `data.size`, `data.empty`,
range-for, `operator==`, and the `initializer_list` constructor, which
inserts without overwriting so the first occurrence of a duplicate key
wins).
-/

namespace DictSpec

variable {Key Value : Type} [DecidableEq Key] [DecidableEq Value]

/-- `std::unordered_map::find` on the entry list: the value stored with
key `k`, if present. With distinct keys at most one entry can match; on a
raw list it returns the first match. -/
def mapFind (k : Key) : List (Key × Value) → Option Value
  | [] => none
  | (k2, v) :: rest => if k2 = k then some v else mapFind k rest

/-- `data[key] = value` on the underlying map: overwrite the value if the
key is present, otherwise add a fresh entry (`operator[]` inserts a
default-constructed value, which the assignment immediately overwrites;
the net effect on the entries is recorded here). -/
def mapAssign (k : Key) (v : Value) : List (Key × Value) → List (Key × Value)
  | [] => [(k, v)]
  | (k2, v2) :: rest =>
      if k2 = k then (k2, v) :: rest else (k2, v2) :: mapAssign k v rest

/-- `std::unordered_map::erase(key)`: drop the entry with key `k` when
present (there is at most one in a reachable container). -/
def mapErase (k : Key) : List (Key × Value) → List (Key × Value)
  | [] => []
  | (k2, v2) :: rest =>
      if k2 = k then rest else (k2, v2) :: mapErase k rest

/-- One step of `std::unordered_map::insert` as used by the
`initializer_list` constructor: a pair whose key is already present is
ignored (no overwrite), otherwise the entry is added. -/
def mapInsertNew (acc : List (Key × Value)) (p : Key × Value) :
    List (Key × Value) :=
  if (mapFind p.1 acc).isSome then acc else acc ++ [p]

/-- `std::unordered_map::operator==`: equal sizes and every entry of the
left map is found in the right map with an equal value. -/
def mapBeq (a b : List (Key × Value)) : Bool :=
  decide (a.length = b.length) &&
    a.all (fun p => decide (mapFind p.1 b = some p.2))

/-- The `Dictionary<Key, Value>` class: its single field is the
underlying `std::unordered_map<Key, Value> data`. -/
structure Dictionary (Key Value : Type) where
  data : List (Key × Value)
deriving DecidableEq

namespace Dictionary

/-- The default constructor `Dictionary()`: empty map. -/
def mkEmpty : Dictionary Key Value := ⟨[]⟩

/-- The `initializer_list` constructor: delegates to the underlying
map's `initializer_list` constructor, which inserts the pairs in order
without overwriting (first occurrence of a duplicate key wins). -/
def ofList (l : List (Key × Value)) : Dictionary Key Value :=
  ⟨l.foldl mapInsertNew []⟩

/-- `void insert(const Key& key, const Value& value)`: performs
`data[key] = value`. (The rvalue overloads perform the same assignment.) -/
def insert (d : Dictionary Key Value) (k : Key) (v : Value) :
    Dictionary Key Value :=
  ⟨mapAssign k v d.data⟩

/-- `std::optional<Value> get(const Key& key) const`: `data.find(key)`,
returning the mapped value when found and `std::nullopt` otherwise. -/
def get (d : Dictionary Key Value) (k : Key) : Option Value :=
  mapFind k d.data

/-- `bool contains(const Key& key) const`:
`data.find(key) != data.end()`. -/
def contains (d : Dictionary Key Value) (k : Key) : Bool :=
  (mapFind k d.data).isSome

/-- `bool remove(const Key& key)`: `data.erase(key) > 0`. Returns the
flag together with the mutated dictionary (`erase` returns the number of
removed elements, which is positive exactly when the key was found). -/
def remove (d : Dictionary Key Value) (k : Key) :
    Bool × Dictionary Key Value :=
  ((mapFind k d.data).isSome, ⟨mapErase k d.data⟩)

/-- `void clear()`: `data.clear()`. -/
def clear (_d : Dictionary Key Value) : Dictionary Key Value := ⟨[]⟩

/-- `size_t size() const`: `data.size()`. -/
def size (d : Dictionary Key Value) : Nat := d.data.length

/-- `bool empty() const`: `data.empty()`. -/
def empty (d : Dictionary Key Value) : Bool := d.data.isEmpty

/-- `std::vector<Key> keys() const`: collects `pair.first` over the
entries. -/
def keys (d : Dictionary Key Value) : List Key := d.data.map Prod.fst

/-- `std::vector<Value> values() const`: collects `pair.second` over the
entries. -/
def values (d : Dictionary Key Value) : List Value := d.data.map Prod.snd

/-- `Value& operator[](const Key& key)`: `data[key]`, which inserts a
default-constructed value when the key is absent and returns a reference
to the mapped value. Modelled as the value read through the reference
together with the mutated dictionary. -/
def subscript [Inhabited Value] (d : Dictionary Key Value) (k : Key) :
    Value × Dictionary Key Value :=
  match mapFind k d.data with
  | some v => (v, d)
  | none => (default, ⟨d.data ++ [(k, default)]⟩)

/-- `const Value& operator[](const Key& key) const`: returns the mapped
value when `data.find(key)` succeeds and otherwise throws
`std::out_of_range("Key not found in dictionary")`. -/
def subscriptConst (d : Dictionary Key Value) (k : Key) :
    Except String Value :=
  match mapFind k d.data with
  | some v => Except.ok v
  | none => Except.error "Key not found in dictionary"

/-- `bool operator==(const Dictionary& other) const`:
`data == other.data` via `std::unordered_map::operator==`. -/
def beq (d other : Dictionary Key Value) : Bool :=
  mapBeq d.data other.data

/-- `bool operator!=(const Dictionary& other) const`:
`!(*this == other)`. -/
def bne (d other : Dictionary Key Value) : Bool :=
  !(d.beq other)

/-- Representation invariant of every reachable container: the keys of
the entry list are pairwise distinct (a `std::unordered_map` never holds
two entries with equal keys). -/
def WF (d : Dictionary Key Value) : Prop :=
  (d.data.map Prod.fst).Nodup

instance (d : Dictionary Key Value) : Decidable d.WF := by
  unfold WF; infer_instance

end Dictionary

/-! ### Operation traces

The client-visible mutating interface, as a step relation, for stating
the spec's trace-level size invariant. -/

/-- One call a client can make on a dictionary. -/
inductive Op (Key Value : Type) where
  | insert (k : Key) (v : Value)
  | remove (k : Key)
  | clear
  | subscript (k : Key)
  | subscriptConst (k : Key)
deriving DecidableEq

/-- The state after one call (`subscriptConst` is a `const` member and
leaves the state unchanged). -/
def applyOp [Inhabited Value] (d : Dictionary Key Value) :
    Op Key Value → Dictionary Key Value
  | Op.insert k v => d.insert k v
  | Op.remove k => (d.remove k).2
  | Op.clear => d.clear
  | Op.subscript k => (d.subscript k).2
  | Op.subscriptConst _ => d

/-- The state after a sequence of calls. -/
def runOps [Inhabited Value] (d : Dictionary Key Value)
    (ops : List (Op Key Value)) : Dictionary Key Value :=
  ops.foldl applyOp d

/-- The keys passed to `insert` calls of a trace, in order; formalizes
the spec's phrase "keys ever inserted". -/
def insertedKeys : List (Op Key Value) → List Key
  | [] => []
  | Op.insert k _ :: rest => k :: insertedKeys rest
  | _ :: rest => insertedKeys rest

/-- The number of `remove` calls of a trace that return true (successful
removals), starting from state `d`. -/
def successfulRemoveCount [Inhabited Value] (d : Dictionary Key Value) :
    List (Op Key Value) → Nat
  | [] => 0
  | op :: rest =>
      (match op with
       | Op.remove k => if (d.remove k).1 then 1 else 0
       | _ => 0) + successfulRemoveCount (applyOp d op) rest

/-- The number of associations one call adds to state `d`: 1 for
`insert` or mutable subscript access on an absent key, 0 otherwise. -/
def opAdded (d : Dictionary Key Value) : Op Key Value → Nat
  | Op.insert k _ => if d.contains k then 0 else 1
  | Op.subscript k => if d.contains k then 0 else 1
  | _ => 0

/-- The number of associations one call deletes from state `d`: 1 for a
successful `remove`, everything stored for `clear`, 0 otherwise. -/
def opRemoved (d : Dictionary Key Value) : Op Key Value → Nat
  | Op.remove k => if d.contains k then 1 else 0
  | Op.clear => d.size
  | _ => 0

/-- Total number of associations added along a trace from `d`. -/
def addedCount [Inhabited Value] (d : Dictionary Key Value) :
    List (Op Key Value) → Nat
  | [] => 0
  | op :: rest => opAdded d op + addedCount (applyOp d op) rest

/-- Total number of associations deleted along a trace from `d`. -/
def removedEntriesCount [Inhabited Value] (d : Dictionary Key Value) :
    List (Op Key Value) → Nat
  | [] => 0
  | op :: rest => opRemoved d op + removedEntriesCount (applyOp d op) rest

/-! ### Basic lemmas about the underlying map operations -/

theorem mapFind_mapAssign_self (k : Key) (v : Value) (l : List (Key × Value)) :
    mapFind k (mapAssign k v l) = some v := by
  induction l with
  | nil => simp [mapAssign, mapFind]
  | cons p rest ih =>
    obtain ⟨k2, v2⟩ := p
    by_cases h : k2 = k
    · simp [mapAssign, mapFind, h]
    · simp [mapAssign, mapFind, h, ih]

theorem mapFind_mapAssign_ne (k k2 : Key) (v : Value) (l : List (Key × Value))
    (hne : k ≠ k2) : mapFind k2 (mapAssign k v l) = mapFind k2 l := by
  induction l with
  | nil => simp [mapAssign, mapFind, hne]
  | cons p rest ih =>
    obtain ⟨k3, v3⟩ := p
    by_cases h : k3 = k
    · subst h
      simp [mapAssign, mapFind, hne]
    · simp only [mapAssign, if_neg h]
      by_cases h2 : k3 = k2
      · simp [mapFind, h2]
      · simp [mapFind, h2, ih]

theorem mapAssign_length (k : Key) (v : Value) (l : List (Key × Value)) :
    (mapAssign k v l).length =
      if (mapFind k l).isSome then l.length else l.length + 1 := by
  induction l with
  | nil => simp [mapAssign, mapFind]
  | cons p rest ih =>
    obtain ⟨k2, v2⟩ := p
    by_cases h : k2 = k
    · simp [mapAssign, mapFind, h]
    · simp only [mapAssign, if_neg h, mapFind, List.length_cons, ih]
      by_cases h2 : (mapFind k rest).isSome <;> simp [h, h2]

theorem mapFind_isSome_iff_mem (k : Key) (l : List (Key × Value)) :
    (mapFind k l).isSome = true ↔ k ∈ l.map Prod.fst := by
  induction l with
  | nil => simp [mapFind]
  | cons p rest ih =>
    obtain ⟨k2, v2⟩ := p
    by_cases h : k2 = k
    · simp [mapFind, h]
    · simp [mapFind, h, ih, Ne.symm h]

theorem mapFind_mapErase_ne (k k2 : Key) (l : List (Key × Value))
    (hne : k ≠ k2) : mapFind k2 (mapErase k l) = mapFind k2 l := by
  induction l with
  | nil => simp [mapErase]
  | cons p rest ih =>
    obtain ⟨k3, v3⟩ := p
    by_cases h : k3 = k
    · subst h
      simp [mapErase, mapFind, hne]
    · simp only [mapErase, if_neg h]
      by_cases h2 : k3 = k2
      · simp [mapFind, h2]
      · simp [mapFind, h2, ih]

theorem mapErase_of_not_mem (k : Key) (l : List (Key × Value))
    (h : mapFind k l = none) : mapErase k l = l := by
  induction l with
  | nil => simp [mapErase]
  | cons p rest ih =>
    obtain ⟨k2, v2⟩ := p
    by_cases h2 : k2 = k
    · simp [mapFind, h2] at h
    · simp only [mapFind, if_neg h2] at h
      simp [mapErase, h2, ih h]

theorem mapErase_length (k : Key) (l : List (Key × Value))
    (h : (mapFind k l).isSome = true) :
    (mapErase k l).length + 1 = l.length := by
  induction l with
  | nil => simp [mapFind] at h
  | cons p rest ih =>
    obtain ⟨k2, v2⟩ := p
    by_cases h2 : k2 = k
    · simp [mapErase, h2]
    · simp only [mapFind, if_neg h2] at h
      simp [mapErase, h2, ih h]

theorem mapFind_mapErase_self (k : Key) (l : List (Key × Value))
    (hwf : (l.map Prod.fst).Nodup) : mapFind k (mapErase k l) = none := by
  induction l with
  | nil => simp [mapErase, mapFind]
  | cons p rest ih =>
    obtain ⟨k2, v2⟩ := p
    simp only [List.map_cons, List.nodup_cons] at hwf
    by_cases h : k2 = k
    · subst h
      simp only [mapErase, if_pos rfl]
      rcases hfind : mapFind k2 rest with _ | v3
      · exact hfind
      · exact absurd ((mapFind_isSome_iff_mem k2 rest).mp (by simp [hfind]))
          hwf.1
    · simp [mapErase, h, mapFind, ih hwf.2]

theorem mem_keys_mapAssign (k k2 : Key) (v : Value) (l : List (Key × Value)) :
    k2 ∈ (mapAssign k v l).map Prod.fst ↔ k2 ∈ l.map Prod.fst ∨ k2 = k := by
  induction l with
  | nil => simp [mapAssign]
  | cons p rest ih =>
    obtain ⟨k3, v3⟩ := p
    by_cases h : k3 = k
    · subst h
      simp [mapAssign]
      tauto
    · simp [mapAssign, h, ih]
      tauto

theorem nodup_keys_mapAssign (k : Key) (v : Value) (l : List (Key × Value))
    (hwf : (l.map Prod.fst).Nodup) :
    ((mapAssign k v l).map Prod.fst).Nodup := by
  induction l with
  | nil => simp [mapAssign]
  | cons p rest ih =>
    obtain ⟨k2, v2⟩ := p
    simp only [List.map_cons, List.nodup_cons] at hwf
    by_cases h : k2 = k
    · simp only [mapAssign, if_pos h, List.map_cons, List.nodup_cons]
      exact ⟨hwf.1, hwf.2⟩
    · simp only [mapAssign, if_neg h, List.map_cons, List.nodup_cons]
      refine ⟨fun hmem => ?_, ih hwf.2⟩
      rcases (mem_keys_mapAssign k k2 v rest).mp hmem with h4 | h4
      · exact hwf.1 h4
      · exact h h4

theorem mapErase_sublist (k : Key) (l : List (Key × Value)) :
    (mapErase k l).Sublist l := by
  induction l with
  | nil => simp [mapErase]
  | cons p rest ih =>
    obtain ⟨k2, v2⟩ := p
    by_cases h : k2 = k
    · simp [mapErase, h, List.sublist_cons_self]
    · simpa [mapErase, h] using ih.cons₂ (k2, v2)

theorem nodup_keys_mapErase (k : Key) (l : List (Key × Value))
    (hwf : (l.map Prod.fst).Nodup) :
    ((mapErase k l).map Prod.fst).Nodup :=
  hwf.sublist ((mapErase_sublist k l).map Prod.fst)

theorem mapFind_append (k : Key) (l1 l2 : List (Key × Value)) :
    mapFind k (l1 ++ l2) = (mapFind k l1).or (mapFind k l2) := by
  induction l1 with
  | nil => simp [mapFind]
  | cons p rest ih =>
    obtain ⟨k2, v2⟩ := p
    by_cases h : k2 = k
    · simp [mapFind, h]
    · simp [mapFind, h, ih]

theorem mapFind_some_mem (k : Key) (v : Value) (l : List (Key × Value))
    (h : mapFind k l = some v) : (k, v) ∈ l := by
  induction l with
  | nil => simp [mapFind] at h
  | cons p rest ih =>
    obtain ⟨k2, v2⟩ := p
    by_cases h2 : k2 = k
    · subst h2
      simp only [mapFind, if_true, eq_self_iff_true, Option.some.injEq] at h
      subst h
      exact List.mem_cons_self _ _
    · simp only [mapFind, if_neg h2] at h
      exact List.mem_cons_of_mem _ (ih h)

theorem mapFind_of_mem_nodup (k : Key) (v : Value) (l : List (Key × Value))
    (hwf : (l.map Prod.fst).Nodup) (hmem : (k, v) ∈ l) :
    mapFind k l = some v := by
  induction l with
  | nil => simp at hmem
  | cons p rest ih =>
    obtain ⟨k2, v2⟩ := p
    simp only [List.map_cons, List.nodup_cons] at hwf
    rcases List.mem_cons.mp hmem with h | h
    · obtain ⟨h1, h2⟩ := Prod.mk.injEq .. ▸ h.symm
      simp [mapFind, h1, h2]
    · have hne : k2 ≠ k := by
        intro hk
        subst hk
        exact hwf.1 (List.mem_map_of_mem Prod.fst h)
      simp [mapFind, hne, ih hwf.2 h]

namespace Dictionary

/-- C1: after `insert(k, v)`, `contains k` returns true and `get k`
returns `v`; the size grows by 1 when `k` was absent and is unchanged
when `k` was already present (the value is merely overwritten). -/
theorem insert_contains_get_size (d : Dictionary Key Value) (k : Key)
    (v : Value) :
    (d.insert k v).contains k = true ∧
    (d.insert k v).get k = some v ∧
    (d.insert k v).size = (if d.contains k then d.size else d.size + 1) := by
  refine ⟨?_, ?_, ?_⟩
  · simp [contains, insert, mapFind_mapAssign_self]
  · simp [get, insert, mapFind_mapAssign_self]
  · simp only [size, insert, contains]
    exact mapAssign_length k v d.data

/-- C2: read-only subscript access fails with the `out_of_range`
"Key not found in dictionary" error exactly when the key is absent, and
when it succeeds it returns precisely the stored value reported by `get`
(the member is `const`, so in the embedding it returns no modified
dictionary at all: it cannot create entries; `get` and the mutable
subscript are total functions and never fail). -/
theorem subscriptConst_fails_iff_absent (d : Dictionary Key Value)
    (k : Key) :
    (d.subscriptConst k = Except.error "Key not found in dictionary" ↔
      d.contains k = false) ∧
    ∀ v : Value, d.subscriptConst k = Except.ok v ↔ d.get k = some v := by
  unfold subscriptConst contains get
  cases h : mapFind k d.data <;> simp

/-- C8: right after `clear()` the dictionary is empty and has size 0, and
in every state `empty()` holds exactly when `size()` is 0. -/
theorem clear_empty_size (d : Dictionary Key Value) :
    (d.clear).empty = true ∧ (d.clear).size = 0 ∧
    (d.empty = true ↔ d.size = 0) := by
  simp [clear, empty, size, List.isEmpty_iff, List.length_eq_zero]

/-- C9: `keys()` and `values()` both have length `size()`, and every key
listed by `keys()` satisfies `contains`. -/
theorem keys_values_length_contains (d : Dictionary Key Value) :
    d.keys.length = d.size ∧ d.values.length = d.size ∧
    ∀ k : Key, k ∈ d.keys → d.contains k = true := by
  refine ⟨by simp [keys, size], by simp [values, size], fun k hk => ?_⟩
  exact (mapFind_isSome_iff_mem k d.data).mpr hk

/-- Witness for the `keys` membership hypothesis of C9 at the concrete
dictionary built from the entries (0, 10) and (1, 20). -/
theorem keys_values_length_contains_witness :
    (Dictionary.mk [(0, 10), (1, 20)] : Dictionary Nat Nat).contains 0
      = true :=
  (keys_values_length_contains (Dictionary.mk [(0, 10), (1, 20)])).2.2 0
    (by decide)

/-- C10 (frame property): `insert`, `remove`, and mutable subscript
access on a key `k` leave the association of every other key `k2`
untouched: `get` and `contains` on `k2` answer the same before and
after. -/
theorem frame_insert_remove_subscript [Inhabited Value]
    (d : Dictionary Key Value) (k k2 : Key) (v : Value) (hne : k ≠ k2) :
    (d.insert k v).get k2 = d.get k2 ∧
    (d.insert k v).contains k2 = d.contains k2 ∧
    ((d.remove k).2).get k2 = d.get k2 ∧
    ((d.remove k).2).contains k2 = d.contains k2 ∧
    ((d.subscript k).2).get k2 = d.get k2 ∧
    ((d.subscript k).2).contains k2 = d.contains k2 := by
  have hins : mapFind k2 (mapAssign k v d.data) = mapFind k2 d.data :=
    mapFind_mapAssign_ne k k2 v d.data hne
  have hers : mapFind k2 (mapErase k d.data) = mapFind k2 d.data :=
    mapFind_mapErase_ne k k2 d.data hne
  have hsub : mapFind k2 ((d.subscript k).2).data = mapFind k2 d.data := by
    unfold subscript
    cases h : mapFind k d.data with
    | none =>
      simp only [mapFind_append, mapFind, if_neg hne]
      cases mapFind k2 d.data <;> rfl
    | some v2 => rfl
  exact ⟨hins, congrArg Option.isSome hins, hers,
    congrArg Option.isSome hers, hsub, congrArg Option.isSome hsub⟩

/-- Witness for C10 at the dictionary holding (0, 5), with k = 1 and
k2 = 0. -/
theorem frame_insert_remove_subscript_witness :
    ((Dictionary.mk [((0 : Nat), (5 : Nat))]).insert 1 7).get 0
      = (Dictionary.mk [((0 : Nat), (5 : Nat))]).get 0 :=
  (frame_insert_remove_subscript (Dictionary.mk [(0, 5)]) 1 0 7
    (by decide)).1

/-- C4: mutable subscript access on an absent key inserts the key with a
default-constructed value, returns that value through the reference, and
the size grows by 1; afterwards `contains` holds. -/
theorem subscript_absent (d : Dictionary Key Value) [Inhabited Value]
    (k : Key) (h : d.contains k = false) :
    (d.subscript k).1 = (default : Value) ∧
    ((d.subscript k).2).get k = some (default : Value) ∧
    ((d.subscript k).2).contains k = true ∧
    ((d.subscript k).2).size = d.size + 1 := by
  have hn : mapFind k d.data = none := by
    cases hx : mapFind k d.data with
    | none => rfl
    | some v => simp [contains, hx] at h
  refine ⟨?_, ?_, ?_, ?_⟩
  · simp [subscript, hn]
  · simp [subscript, hn, get, mapFind_append, mapFind]
  · simp [subscript, hn, contains, mapFind_append, mapFind]
  · simp [subscript, hn, size]

/-- Witness for C4 on the empty integer-valued dictionary and key 0: the
reference reads the default value 0 and afterwards the key is present. -/
theorem subscript_absent_witness :
    ((Dictionary.mk ([] : List (Nat × Int))).subscript 0).1
        = (default : Int) ∧
    ((Dictionary.mk ([] : List (Nat × Int))).subscript 0).2.contains 0
        = true :=
  ⟨(subscript_absent (Dictionary.mk []) 0 (by decide)).1,
   (subscript_absent (Dictionary.mk []) 0 (by decide)).2.2.1⟩

/-- C6: `remove(k)` returns exactly `contains(k)`; when the key was
present the association disappears and the size drops by 1, and when it
was absent the dictionary is left entirely unchanged. -/
theorem remove_contains_size (d : Dictionary Key Value) (k : Key)
    (hwf : d.WF) :
    (d.remove k).1 = d.contains k ∧
    (d.contains k = true →
      (d.remove k).2.contains k = false ∧
      (d.remove k).2.size + 1 = d.size) ∧
    (d.contains k = false → (d.remove k).2 = d) := by
  refine ⟨rfl, fun h => ⟨?_, ?_⟩, fun h => ?_⟩
  · simp [contains, remove, mapFind_mapErase_self k d.data hwf]
  · simpa [size, remove] using mapErase_length k d.data h
  · have hn : mapFind k d.data = none := by
      cases hx : mapFind k d.data with
      | none => rfl
      | some v => simp [contains, hx] at h
    cases d
    simp [remove, mapErase_of_not_mem _ _ hn]

/-- Witness for C6 at the dictionary holding (0, 1): removing key 0
succeeds and afterwards the key is gone. -/
theorem remove_contains_size_witness :
    ((Dictionary.mk [((0 : Nat), (1 : Nat))]).remove 0).2.contains 0
      = false :=
  ((remove_contains_size (Dictionary.mk [((0 : Nat), (1 : Nat))]) 0
      (by decide)).2.1 (by decide)).1

end Dictionary

/-! ### The initializer-list constructor -/

theorem mapFind_foldl_mapInsertNew (k : Key) (l acc : List (Key × Value)) :
    mapFind k (l.foldl mapInsertNew acc) =
      (mapFind k acc).or (mapFind k l) := by
  induction l generalizing acc with
  | nil =>
    simp only [List.foldl_nil, mapFind]
    cases mapFind k acc <;> rfl
  | cons p rest ih =>
    rw [List.foldl_cons, ih]
    obtain ⟨k3, v3⟩ := p
    unfold mapInsertNew
    by_cases h : (mapFind k3 acc).isSome
    · rw [if_pos h]
      simp only [mapFind]
      by_cases h2 : k3 = k
      · subst h2
        obtain ⟨v4, hv⟩ := Option.isSome_iff_exists.mp h
        simp [hv]
      · simp [h2]
    · rw [if_neg h]
      have hnone : mapFind k3 acc = none :=
        Option.not_isSome_iff_eq_none.mp h
      simp only [mapFind_append, mapFind]
      by_cases h2 : k3 = k
      · subst h2
        simp [hnone]
      · simp only [if_neg h2]
        cases mapFind k acc <;> rfl

theorem mem_keys_foldl_mapInsertNew (k2 : Key) (l acc : List (Key × Value)) :
    k2 ∈ (l.foldl mapInsertNew acc).map Prod.fst ↔
      k2 ∈ acc.map Prod.fst ∨ k2 ∈ l.map Prod.fst := by
  induction l generalizing acc with
  | nil => simp
  | cons p rest ih =>
    rw [List.foldl_cons, ih]
    obtain ⟨k3, v3⟩ := p
    unfold mapInsertNew
    by_cases h : (mapFind k3 acc).isSome
    · rw [if_pos h]
      have hmem : k3 ∈ acc.map Prod.fst :=
        (mapFind_isSome_iff_mem k3 acc).mp h
      simp only [List.map_cons, List.mem_cons]
      constructor
      · tauto
      · rintro (ha | h2 | hr)
        · left; exact ha
        · subst h2; left; exact hmem
        · right; exact hr
    · rw [if_neg h]
      simp only [List.map_append, List.map_cons, List.mem_append,
        List.map_nil, List.mem_cons, List.mem_singleton,
        List.not_mem_nil, or_false]
      tauto

theorem nodup_keys_foldl_mapInsertNew (l acc : List (Key × Value))
    (hacc : (acc.map Prod.fst).Nodup) :
    ((l.foldl mapInsertNew acc).map Prod.fst).Nodup := by
  induction l generalizing acc with
  | nil => exact hacc
  | cons p rest ih =>
    rw [List.foldl_cons]
    apply ih
    unfold mapInsertNew
    by_cases h : (mapFind p.1 acc).isSome
    · rw [if_pos h]; exact hacc
    · rw [if_neg h]
      have hnot : p.1 ∉ acc.map Prod.fst :=
        fun hm => h ((mapFind_isSome_iff_mem _ _).mpr hm)
      rw [List.map_append]
      refine (List.perm_append_singleton p.1
        (acc.map Prod.fst)).nodup_iff.mpr ?_
      exact List.nodup_cons.mpr ⟨hnot, hacc⟩

namespace Dictionary

/-- C3 counterexample: constructing from the pair sequence
[(0, 1), (0, 2)], which repeats key 0, keeps the FIRST pair's value: the
stored value is 1, not 2 as last-write-wins would demand (the underlying
`std::unordered_map` `initializer_list` constructor inserts without
overwriting). -/
theorem ofList_last_write_wins_false :
    (Dictionary.ofList [((0 : Nat), (1 : Nat)), (0, 2)]).get 0 = some 1 ∧
    ¬ (Dictionary.ofList [((0 : Nat), (1 : Nat)), (0, 2)]).get 0
        = some 2 := by
  constructor <;> decide

/-- C3 (amended): constructing from a sequence of pairs is
first-write-wins: every key maps to the value of the FIRST pair carrying
it (`mapFind` over the raw sequence), the resulting key list is
duplicate-free and holds exactly the keys of the sequence, and the size
is the number of distinct keys in the sequence. -/
theorem ofList_first_wins_size (l : List (Key × Value)) (k : Key) :
    (Dictionary.ofList l).get k = mapFind k l ∧
    (Dictionary.ofList l).WF ∧
    (k ∈ (Dictionary.ofList l).keys ↔ k ∈ l.map Prod.fst) ∧
    (Dictionary.ofList l).size = (l.map Prod.fst).dedup.length := by
  have hwf : ((Dictionary.ofList l).data.map Prod.fst).Nodup :=
    nodup_keys_foldl_mapInsertNew l [] (by simp)
  have hmem : ∀ k2 : Key, k2 ∈ (Dictionary.ofList l).data.map Prod.fst ↔
      k2 ∈ l.map Prod.fst := by
    intro k2
    have := mem_keys_foldl_mapInsertNew k2 l ([] : List (Key × Value))
    simpa [Dictionary.ofList] using this
  refine ⟨?_, hwf, hmem k, ?_⟩
  · have := mapFind_foldl_mapInsertNew k l ([] : List (Key × Value))
    simpa [Dictionary.ofList, Dictionary.get, mapFind] using this
  · have h1 : (Dictionary.ofList l).size
        = ((Dictionary.ofList l).data.map Prod.fst).length := by
      simp [Dictionary.size]
    have h2 : ((Dictionary.ofList l).data.map Prod.fst).toFinset
        = (l.map Prod.fst).toFinset := by
      apply Finset.ext
      intro a
      simp only [List.mem_toFinset]
      exact hmem a
    rw [h1, ← List.toFinset_card_of_nodup hwf, h2, List.card_toFinset]

end Dictionary

/-! ### Equality -/

theorem mapBeq_iff (a b : List (Key × Value)) :
    mapBeq a b = true ↔
      a.length = b.length ∧ ∀ p ∈ a, mapFind p.1 b = some p.2 := by
  simp [mapBeq, List.all_eq_true]

namespace Dictionary

theorem beq_true_iff (d1 d2 : Dictionary Key Value) (h1 : d1.WF) :
    d1.beq d2 = true ↔
      (d1.size = d2.size ∧
        ∀ k, d1.contains k = true → d1.get k = d2.get k) := by
  rw [beq, mapBeq_iff]
  constructor
  · rintro ⟨hlen, hall⟩
    refine ⟨hlen, fun k hk => ?_⟩
    obtain ⟨v, hv⟩ := Option.isSome_iff_exists.mp hk
    have hpm : (k, v) ∈ d1.data := mapFind_some_mem k v d1.data hv
    have := hall (k, v) hpm
    rw [get, get, hv, this]
  · rintro ⟨hlen, hall⟩
    refine ⟨hlen, fun p hp => ?_⟩
    have hc : d1.contains p.1 = true :=
      (mapFind_isSome_iff_mem p.1 d1.data).mpr
        (List.mem_map_of_mem Prod.fst hp)
    have hg : mapFind p.1 d1.data = some p.2 :=
      mapFind_of_mem_nodup p.1 p.2 d1.data h1 hp
    have := hall p.1 hc
    rw [get, get] at this
    rw [← this, hg]

theorem beq_symm_of_true (d1 d2 : Dictionary Key Value) (h1 : d1.WF)
    (h2 : d2.WF) (hb : d1.beq d2 = true) : d2.beq d1 = true := by
  obtain ⟨hsize, hkey⟩ := (beq_true_iff d1 d2 h1).mp hb
  have hfwd : ∀ k, d1.contains k = true → d2.contains k = true := by
    intro k hk
    have := hkey k hk
    rw [contains] at hk ⊢
    rw [get, get] at this
    rw [← this]
    exact hk
  have hsets : (d1.data.map Prod.fst).toFinset
      = (d2.data.map Prod.fst).toFinset := by
    apply Finset.eq_of_subset_of_card_le
    · intro a ha
      rw [List.mem_toFinset] at ha ⊢
      exact (mapFind_isSome_iff_mem a d2.data).mp
        (hfwd a ((mapFind_isSome_iff_mem a d1.data).mpr ha))
    · rw [List.toFinset_card_of_nodup h1, List.toFinset_card_of_nodup h2]
      simp only [List.length_map]
      exact le_of_eq hsize.symm
  have hbwd : ∀ k, d2.contains k = true → d1.contains k = true := by
    intro k hk
    rw [contains, mapFind_isSome_iff_mem, ← List.mem_toFinset, hsets,
      List.mem_toFinset, ← mapFind_isSome_iff_mem]
    exact hk
  refine (beq_true_iff d2 d1 h2).mpr ⟨hsize.symm, fun k hk => ?_⟩
  exact (hkey k (hbwd k hk)).symm

/-- C5: two dictionaries are equal exactly when they hold the same
key-value associations (equal size and every key of the first maps to an
equal value in the second), independently of insertion order; equality is
reflexive and symmetric, and `operator!=` is its boolean negation. -/
theorem beq_spec (d1 d2 : Dictionary Key Value) (h1 : d1.WF)
    (h2 : d2.WF) :
    (d1.beq d2 = true ↔
      d1.size = d2.size ∧
        ∀ k, d1.contains k = true → d1.get k = d2.get k) ∧
    d1.beq d1 = true ∧
    d1.beq d2 = d2.beq d1 ∧
    d1.bne d2 = !(d1.beq d2) := by
  refine ⟨beq_true_iff d1 d2 h1, ?_, ?_, rfl⟩
  · exact (beq_true_iff d1 d1 h1).mpr ⟨rfl, fun k _ => rfl⟩
  · cases hb : d1.beq d2 with
    | true => exact (beq_symm_of_true d1 d2 h1 h2 hb).symm
    | false =>
      cases hb2 : d2.beq d1 with
      | false => rfl
      | true =>
        have := beq_symm_of_true d2 d1 h2 h1 hb2
        rw [hb] at this
        exact absurd this (by simp)

/-- Witness for C5: the dictionary {0:1, 1:2} compares the same against
{1:2, 0:1} in both directions, so insertion order does not matter. -/
theorem beq_spec_witness :
    (Dictionary.mk [((0 : Nat), (1 : Nat)), (1, 2)]).beq
        (Dictionary.mk [(1, 2), (0, 1)])
      = (Dictionary.mk [((1 : Nat), (2 : Nat)), (0, 1)]).beq
        (Dictionary.mk [(0, 1), (1, 2)]) :=
  (beq_spec (Dictionary.mk [(0, 1), (1, 2)])
    (Dictionary.mk [(1, 2), (0, 1)]) (by decide) (by decide)).2.2.1

end Dictionary

/-! ### The trace-level size invariant -/

/-- C7 counterexample: run insert(0, 1); remove(0); insert(0, 1) on an
empty dictionary. The final size is 1, but only one distinct key was
ever inserted and one removal succeeded, so the claimed difference is
1 - 1 = 0. -/
theorem size_invariant_counterexample :
    ¬ ((runOps (Dictionary.mkEmpty : Dictionary Nat Nat)
          [Op.insert 0 1, Op.remove 0, Op.insert 0 1]).size
        = (insertedKeys [Op.insert (0 : Nat) (1 : Nat), Op.remove 0,
            Op.insert 0 1]).dedup.length
          - successfulRemoveCount (Dictionary.mkEmpty : Dictionary Nat Nat)
              [Op.insert 0 1, Op.remove 0, Op.insert 0 1]) := by
  decide

theorem applyOp_size [Inhabited Value] (d : Dictionary Key Value)
    (op : Op Key Value) :
    (applyOp d op).size + opRemoved d op = d.size + opAdded d op := by
  cases op with
  | insert k v =>
    simp only [applyOp, opRemoved, opAdded, Dictionary.insert,
      Dictionary.size, Dictionary.contains]
    rw [mapAssign_length]
    by_cases h : (mapFind k d.data).isSome <;> simp [h]
  | remove k =>
    simp only [applyOp, opRemoved, opAdded, Dictionary.remove,
      Dictionary.size, Dictionary.contains]
    by_cases h : (mapFind k d.data).isSome
    · rw [if_pos h]
      have := mapErase_length k d.data h
      omega
    · rw [if_neg h,
        mapErase_of_not_mem k d.data (Option.not_isSome_iff_eq_none.mp h)]
  | clear =>
    simp only [applyOp, opRemoved, opAdded, Dictionary.clear,
      Dictionary.size, List.length_nil]
    omega
  | subscript k =>
    simp only [applyOp, opRemoved, opAdded, Dictionary.subscript,
      Dictionary.size, Dictionary.contains]
    split
    next v heq => simp [heq]
    next heq => simp [heq]
  | subscriptConst k =>
    simp [applyOp, opRemoved, opAdded]

/-- C7 (amended): along every operation sequence from any starting state,
the final size plus the number of deleted associations (successful
removals plus entries discarded by `clear`) equals the starting size plus
the number of key-adding calls (`insert` or mutable subscript on a key
absent at call time). From an empty start the size is therefore the
key-adding count minus the deletion count. -/
theorem size_trace_invariant [Inhabited Value]
    (ops : List (Op Key Value)) (d : Dictionary Key Value) :
    (runOps d ops).size + removedEntriesCount d ops
      = d.size + addedCount d ops := by
  induction ops generalizing d with
  | nil => simp [runOps, removedEntriesCount, addedCount]
  | cons op rest ih =>
    have hstep := applyOp_size d op
    have ihs := ih (applyOp d op)
    simp only [runOps, List.foldl_cons, removedEntriesCount,
      addedCount] at ihs ⊢
    omega

end DictSpec
